import Mathlib

/-
  Verification of the active-set convex-QP solver
  (`active_set`, `QP_subproblem`, `QP_activeset`).

  The embedding works over exact rational arithmetic.  Vectors are
  functions `Fin n → ℚ`, a constraint row `a·x ≥ b` (or `a·x = b`) is the
  pair `(a, b)` (the source stores it as the horizontal concatenation
  `[a | b]` of width `Nx + 1`), and the working set, active set and
  inactive set are lists of such rows.  The linear solve
  `np.linalg.inv(lhs) @ rhs` is modelled by multiplication with
  `det⁻¹ • adjugate`; a singular KKT matrix (where `np.linalg.inv`
  raises `LinAlgError`) is modelled as the error outcome `fail`.
  The unbounded `while(True)` loop of the source is modelled with an
  explicit fuel parameter; running out of fuel gives the artificial
  outcome `fuelOut` (the source would simply still be running).
-/

namespace ActiveSetQP

open Matrix

/-- `tol_zero = 1e-10`: magnitudes below this are snapped to exact zero
after each linear solve. -/
def tol_zero : ℚ := 1 / 10000000000

/-- The snap applied componentwise by `sol[abs(sol) < tol_zero] = 0.0`. -/
def snap (x : ℚ) : ℚ := if |x| < tol_zero then 0 else x

/-- Column vectors of length `n`. -/
abbrev Vec (n : ℕ) := Fin n → ℚ

/-- One constraint row: coefficients `a` and right-hand side `b`,
the source's `[a | b]` row of width `Nx + 1`. -/
abbrev Row (n : ℕ) := (Fin n → ℚ) × ℚ

/-- Dot product `a @ x` of two vectors. -/
def dot {n : ℕ} (a x : Vec n) : ℚ := Finset.univ.sum fun j => a j * x j

/-- `active_set(ai, bi, x0)`: classify inequality row `i` as active iff
`(ai @ x0 - bi)[i] == 0` exactly, and return the active and inactive rows
(each row as its `[a | b]` pair), in the original order. -/
def active_set {n : ℕ} (ai : List (Vec n)) (bi : List ℚ) (x0 : Vec n) :
    List (Row n) × List (Row n) :=
  ((ai.zip bi).filter fun r => decide (dot r.1 x0 - r.2 = 0),
   (ai.zip bi).filter fun r => !decide (dot r.1 x0 - r.2 = 0))

/-- The coefficient block `A = ws[:, 0:-1]` of a working set. -/
def kktA {n : ℕ} (ws : List (Row n)) : Matrix (Fin ws.length) (Fin n) ℚ :=
  Matrix.of fun i j => (ws.get i).1 j

/-- The KKT left-hand side `[[G, -Aᵀ], [A, 0]]`. -/
def kktL {n : ℕ} (G : Matrix (Fin n) (Fin n) ℚ) (ws : List (Row n)) :
    Matrix (Fin n ⊕ Fin ws.length) (Fin n ⊕ Fin ws.length) ℚ :=
  Matrix.fromBlocks G (-(kktA ws)ᵀ) (kktA ws) 0

/-- The KKT right-hand side `[-(G xk + c); 0]`. -/
def kktR {n : ℕ} (G : Matrix (Fin n) (Fin n) ℚ) (c xk : Vec n)
    (ws : List (Row n)) : Fin n ⊕ Fin ws.length → ℚ :=
  Sum.elim (fun i => -(G.mulVec xk + c) i) 0

/-- Exact-arithmetic matrix inverse (`np.linalg.inv` on a nonsingular
matrix): `det⁻¹ • adjugate`. -/
def cInv {m : Type*} [DecidableEq m] [Fintype m] (M : Matrix m m ℚ) :
    Matrix m m ℚ :=
  (M.det)⁻¹ • M.adjugate

/-- The raw KKT solution `inv(lhs) @ rhs`, before the `tol_zero` snap. -/
def kktSol {n : ℕ} (G : Matrix (Fin n) (Fin n) ℚ) (c xk : Vec n)
    (ws : List (Row n)) : Fin n ⊕ Fin ws.length → ℚ :=
  (cInv (kktL G ws)).mulVec (kktR G c xk ws)

/-- `QP_subproblem(G, c, ws, xk)`: solve the KKT system, snap the solution
vector, and split it into the step `pk` (first `Nx` rows) and the
multipliers `lambda_k` (remaining rows, one per working-set row).
A singular KKT matrix is the error case (`np.linalg.inv` raises). -/
def QP_subproblem {n : ℕ} (G : Matrix (Fin n) (Fin n) ℚ) (c : Vec n)
    (ws : List (Row n)) (xk : Vec n) :
    Option (Vec n × List ℚ) :=
  if (kktL G ws).det = 0 then none
  else
    some (fun j => snap (kktSol G c xk ws (Sum.inl j)),
          List.ofFn fun i => snap (kktSol G c xk ws (Sum.inr i)))

/-- The mutable loop state of `QP_activeset`: current iterate `xk`,
active rows `act`, inactive rows `inact`, and the working set `ws`
(the source keeps `ws` as its own variable, rebuilt on changes). -/
structure AState (n : ℕ) where
  xk : Vec n
  act : List (Row n)
  inact : List (Row n)
  ws : List (Row n)

/-- Outcome of one pass through the `while(True)` body. -/
inductive IterResult (n : ℕ) where
  | done : Vec n → List ℚ → IterResult n
  | next : AState n → IterResult n
  | fail : IterResult n


/-- The step-length scan
`for i, row in enumerate(ws_inactive): ...`, carried out with the
accumulator `(alpha_k, n_constraint)` starting from `(1, None)`.
Mirrors the source literally: a row with `a @ pk < 0` overwrites the
accumulator whenever its ratio is `< 1` (the comparison in the source is
against the constant `1`, not against the current `alpha_k`). -/
def alphaLoop {n : ℕ} (xk pk : Vec n) :
    ℕ → ℚ × Option ℕ → List (Row n) → ℚ × Option ℕ
  | _, acc, [] => acc
  | i, acc, row :: rest =>
      alphaLoop xk pk (i + 1)
        (if dot row.1 pk < 0 then
          (if (row.2 - dot row.1 xk) / (dot row.1 pk) < 1 then
            ((row.2 - dot row.1 xk) / (dot row.1 pk), some i)
          else acc)
        else acc) rest

/-- Entry point of the step-length scan: `alpha_k = 1`, no constraint. -/
def alphaScan {n : ℕ} (xk pk : Vec n) (rows : List (Row n)) : ℚ × Option ℕ :=
  alphaLoop xk pk 0 (1, none) rows

/-- `np.argmin` on a list: index of the first minimal element.
Auxiliary recursion carrying (next index, best index, best value). -/
def argminAux : ℕ → ℕ → ℚ → List ℚ → ℕ
  | _, bi, _, [] => bi
  | i, bi, bv, v :: rest =>
      if v < bv then argminAux (i + 1) i v rest
      else argminAux (i + 1) bi bv rest

/-- `np.argmin` on a nonempty list (`0` on the empty list, on which the
source would raise). -/
def argminIdx : List ℚ → ℕ
  | [] => 0
  | v :: rest => argminAux 1 0 v rest

/-- Primal feasibility of the equality rows at `x`:
`np.all(ae @ x - be == 0)`. -/
def eqHolds {n : ℕ} (rows : List (Row n)) (x : Vec n) : Prop :=
  ∀ r ∈ rows, dot r.1 x - r.2 = 0

instance {n : ℕ} (rows : List (Row n)) (x : Vec n) : Decidable (eqHolds rows x) :=
  List.decidableBAll _ rows

/-- Primal feasibility of the inequality rows at `x`:
`np.all(ai @ x - bi >= 0)`. -/
def ineqHolds {n : ℕ} (rows : List (Row n)) (x : Vec n) : Prop :=
  ∀ r ∈ rows, 0 ≤ dot r.1 x - r.2

instance {n : ℕ} (rows : List (Row n)) (x : Vec n) : Decidable (ineqHolds rows x) :=
  List.decidableBAll _ rows

/-- One pass through the body of the `while(True)` loop of
`QP_activeset`.  `we` is the fixed list of equality rows (`Ne` is its
length).  The zero-step test `n_zero == Nx` is rendered as
`∀ j, pk j = 0` (no nonzero component survives the snap), and the
optimality test `np.all(lambda_inequality >= 0)` as membership-bounded
non-negativity over `lambda_k[Ne:]`. -/
def QP_iter {n : ℕ} (G : Matrix (Fin n) (Fin n) ℚ) (c : Vec n)
    (we : List (Row n)) (st : AState n) : IterResult n :=
  match QP_subproblem G c st.ws st.xk with
  | none => .fail
  | some (pk, lambda_k) =>
    let lambda_inequality : List ℚ := lambda_k.drop we.length
    if ∀ j, pk j = 0 then
      if ∀ q ∈ lambda_inequality, 0 ≤ q then
        .done st.xk lambda_k
      else
        let n_min := argminIdx lambda_inequality
        let act' := st.act.eraseIdx n_min
        .next ⟨st.xk, act', st.inact ++ [st.act.getD n_min default], we ++ act'⟩
    else
      let sc := alphaScan st.xk pk st.inact
      if sc.1 = 1 then
        .next ⟨fun j => st.xk j + pk j * sc.1, st.act, st.inact, st.ws⟩
      else
        let n_constraint := sc.2.getD 0
        let act' := st.act ++ [st.inact.getD n_constraint default]
        .next ⟨fun j => st.xk j + pk j * sc.1, act',
               st.inact.eraseIdx n_constraint, we ++ act'⟩

/-- Outcome of a bounded run of the main loop. -/
inductive QPResult (n : ℕ) where
  | ok : Vec n → List ℚ → QPResult n
  | infeasible : QPResult n
  | fail : QPResult n
  | fuelOut : QPResult n


/-- The `while(True)` loop, bounded by `fuel` iterations. -/
def QP_loop {n : ℕ} (G : Matrix (Fin n) (Fin n) ℚ) (c : Vec n)
    (we : List (Row n)) : ℕ → AState n → QPResult n
  | 0, _ => .fuelOut
  | fuel + 1, st =>
    match QP_iter G c we st with
    | .done x l => .ok x l
    | .fail => .fail
    | .next st' => QP_loop G c we fuel st'

/-- `QP_activeset(G, c, ae, be, ai, bi, x0)`.  The optional constraint
blocks are passed as optional (matrix, vector) pairs; `x0` defaults to
the zero vector.  The feasibility precheck mirrors the source: the
equality rows are tested first, then the inequality rows, and a
violation prints an error and returns `None` (here: `infeasible`). -/
def QP_activeset {n : ℕ} (fuel : ℕ) (G : Matrix (Fin n) (Fin n) ℚ)
    (c : Vec n) (ae : Option (List (Vec n) × List ℚ))
    (ai : Option (List (Vec n) × List ℚ)) (x0opt : Option (Vec n)) :
    QPResult n :=
  let x0 := x0opt.getD fun _ => 0
  let we : List (Row n) := match ae with
    | none => []
    | some p => p.1.zip p.2
  let ir : List (Row n) := match ai with
    | none => []
    | some p => p.1.zip p.2
  if ae.isSome ∧ ¬ eqHolds we x0 then .infeasible
  else if ai.isSome ∧ ¬ ineqHolds ir x0 then .infeasible
  else
    let st0 := match ai with
      | none => ([], [])
      | some p => active_set p.1 p.2 x0
    QP_loop G c we fuel ⟨x0, st0.1, st0.2, we ++ st0.1⟩

/- ------------------------------------------------------------------
   Helper lemmas about the linear-algebra core.
   ------------------------------------------------------------------ -/

theorem cInv_mul {m : Type*} [DecidableEq m] [Fintype m] (M : Matrix m m ℚ)
    (h : M.det ≠ 0) : cInv M * M = 1 := by
  rw [cInv, smul_mul_assoc, Matrix.adjugate_mul, smul_smul, inv_mul_cancel₀ h,
    one_smul]

theorem mul_cInv {m : Type*} [DecidableEq m] [Fintype m] (M : Matrix m m ℚ)
    (h : M.det ≠ 0) : M * cInv M = 1 := by
  rw [cInv, mul_smul_comm, Matrix.mul_adjugate, smul_smul, inv_mul_cancel₀ h,
    one_smul]

/-- If `M` is nonsingular, `cInv M *ᵥ v` is the unique solution of
`M *ᵥ s = v`: any explicit solution equals it. -/
theorem cInv_unique {m : Type*} [DecidableEq m] [Fintype m] (M : Matrix m m ℚ)
    (h : M.det ≠ 0) (v s : m → ℚ) (hs : M.mulVec s = v) :
    (cInv M).mulVec v = s := by
  rw [← hs, Matrix.mulVec_mulVec, cInv_mul M h, Matrix.one_mulVec]

/-- A matrix with an explicit right inverse has nonzero determinant. -/
theorem det_ne_zero_of_right_inv {m : Type*} [DecidableEq m] [Fintype m]
    (M N : Matrix m m ℚ) (h : M * N = 1) : M.det ≠ 0 := by
  have := Matrix.isUnit_det_of_right_inverse h
  exact IsUnit.ne_zero this

theorem cInv_solves {m : Type*} [DecidableEq m] [Fintype m] (M : Matrix m m ℚ)
    (h : M.det ≠ 0) (v : m → ℚ) : M.mulVec ((cInv M).mulVec v) = v := by
  rw [Matrix.mulVec_mulVec, mul_cInv M h, Matrix.one_mulVec]

theorem kktA_nil {n : ℕ} : kktA ([] : List (Row n)) = 0 := by
  funext i
  exact i.elim0

/-- With an empty working set the KKT matrix is `G` bordered by empty
blocks, so its determinant is `det G`. -/
theorem det_kktL_nil {n : ℕ} (G : Matrix (Fin n) (Fin n) ℚ) :
    (kktL G ([] : List (Row n))).det = G.det := by
  rw [kktL, kktA_nil]
  have : -(0 : Matrix (Fin ([] : List (Row n)).length) (Fin n) ℚ)ᵀ = 0 := by
    simp
  rw [this, Matrix.det_fromBlocks_zero₂₁]
  haveI : IsEmpty (Fin ([] : List (Row n)).length) := by
    constructor
    intro i
    exact absurd i.2 (by simp)
  have h0 : (0 : Matrix (Fin ([] : List (Row n)).length)
      (Fin ([] : List (Row n)).length) ℚ).det = 1 := Matrix.det_isEmpty
  rw [h0, mul_one]

/-- Block decomposition of the action of the KKT matrix. -/
theorem kktL_mulVec {n : ℕ} (G : Matrix (Fin n) (Fin n) ℚ)
    (ws : List (Row n)) (u : Vec n) (v : Fin ws.length → ℚ) :
    (kktL G ws).mulVec (Sum.elim u v) =
      Sum.elim (G.mulVec u - (kktA ws)ᵀ.mulVec v) ((kktA ws).mulVec u) := by
  rw [kktL, Matrix.fromBlocks_mulVec]
  simp [Matrix.neg_mulVec, sub_eq_add_neg]

theorem snap_zero : snap 0 = 0 := by
  rw [snap, tol_zero]
  norm_num

theorem snap_of_tol_le {x : ℚ} (h : tol_zero ≤ |x|) : snap x = x := by
  rw [snap, if_neg (not_lt.mpr h)]

theorem snap_nonneg {x : ℚ} (h : 0 ≤ x) : 0 ≤ snap x := by
  rw [snap]
  split_ifs <;> simp [h]

theorem snap_eq_zero_of_abs_lt {x : ℚ} (h : |x| < tol_zero) : snap x = 0 := by
  rw [snap, if_pos h]

/-- Rewrite a `QP_subproblem` call with an explicitly given solution of
the KKT system. -/
theorem QP_subproblem_eq {n : ℕ} (G : Matrix (Fin n) (Fin n) ℚ)
    (c xk : Vec n) (ws : List (Row n)) (s : Fin n ⊕ Fin ws.length → ℚ)
    (hdet : (kktL G ws).det ≠ 0) (hs : (kktL G ws).mulVec s = kktR G c xk ws) :
    QP_subproblem G c ws xk =
      some (fun j => snap (s (Sum.inl j)),
            List.ofFn fun i => snap (s (Sum.inr i))) := by
  have hsol : kktSol G c xk ws = s := cInv_unique _ hdet _ s hs
  rw [QP_subproblem, if_neg hdet, hsol]

/-- The multiplier vector returned by `QP_subproblem` has one entry per
working-set row. -/
theorem QP_subproblem_length {n : ℕ} (G : Matrix (Fin n) (Fin n) ℚ)
    (c xk : Vec n) (ws : List (Row n)) (p : Vec n) (lam : List ℚ)
    (h : QP_subproblem G c ws xk = some (p, lam)) : lam.length = ws.length := by
  rw [QP_subproblem] at h
  by_cases hdet : (kktL G ws).det = 0
  · rw [if_pos hdet] at h
    cases h
  · rw [if_neg hdet] at h
    cases h
    exact List.length_ofFn _

/- ------------------------------------------------------------------
   C7: classification by `active_set`.
   ------------------------------------------------------------------ -/

/-- C7: `active_set(A_i, b_i, x0)` classifies a row as active iff
`(A_i x0)_i - (b_i)_i` is exactly zero (no tolerance), returns the rows
as `[a | b]` pairs split by membership, and the two outputs together are
exactly the input rows (a permutation: none lost, none duplicated). -/
theorem active_set_exact_partition {n : ℕ} (ai : List (Vec n)) (bi : List ℚ)
    (x0 : Vec n) (r : Row n) :
    ((active_set ai bi x0).1 ++ (active_set ai bi x0).2).Perm (ai.zip bi)
    ∧ (r ∈ (active_set ai bi x0).1 ↔ r ∈ ai.zip bi ∧ dot r.1 x0 - r.2 = 0)
    ∧ (r ∈ (active_set ai bi x0).2 ↔ r ∈ ai.zip bi ∧ ¬ dot r.1 x0 - r.2 = 0) := by
  refine ⟨List.filter_append_perm _ _, ?_, ?_⟩ <;>
    simp [active_set, List.mem_filter]

/- ------------------------------------------------------------------
   C4: infeasible starting point.
   ------------------------------------------------------------------ -/

/-- C4: if the (possibly defaulted) starting point violates a supplied
equality row or a supplied inequality row, `QP_activeset` reports the
error up front: the result is the null result `infeasible`, whatever the
fuel, with no iteration of the main loop performed. -/
theorem QP_activeset_infeasible_start {n : ℕ} (fuel : ℕ)
    (G : Matrix (Fin n) (Fin n) ℚ) (c : Vec n)
    (ae ai : Option (List (Vec n) × List ℚ)) (x0opt : Option (Vec n))
    (hviol :
      (∃ p, ae = some p ∧ ¬ eqHolds (p.1.zip p.2) (x0opt.getD fun _ => 0))
      ∨ (∃ p, ai = some p ∧ ¬ ineqHolds (p.1.zip p.2) (x0opt.getD fun _ => 0))) :
    QP_activeset fuel G c ae ai x0opt = .infeasible := by
  rcases hviol with ⟨p, hp, hv⟩ | ⟨p, hp, hv⟩ <;> subst hp <;>
    · simp only [QP_activeset]
      split_ifs with h1 h2 <;> first
        | rfl
        | (exfalso
           simp only [Option.isSome_some, true_and, not_and, not_not,
             Bool.true_eq_false] at h1 h2 <;> tauto)

theorem QP_activeset_infeasible_start_witness :
    QP_activeset 3 !![(1:ℚ)] ![0] none (some ([![1]], [1])) none = .infeasible := by
  refine QP_activeset_infeasible_start 3 _ _ _ _ _ (Or.inr ⟨_, rfl, ?_⟩)
  intro h
  have := h (![1], 1) (by simp)
  simp [dot, Fin.sum_univ_one] at this
  norm_num at this

/- ------------------------------------------------------------------
   C2: normal return happens exactly at a zero step with non-negative
   inequality multipliers.
   ------------------------------------------------------------------ -/

/-- `k` successive `next` states of the loop body (`none` if the loop
body stopped, failed, or returned within the first `k` passes). -/
def QP_traj {n : ℕ} (G : Matrix (Fin n) (Fin n) ℚ) (c : Vec n)
    (we : List (Row n)) : ℕ → AState n → Option (AState n)
  | 0, st => some st
  | k + 1, st =>
    match QP_iter G c we st with
    | .next st' => QP_traj G c we k st'
    | _ => none

/-- C2: the loop returns normally (result `ok x l`) exactly when some
iteration reaches a state whose subproblem step is all-zero after the
snap and whose inequality multipliers (the entries of `lambda_k` after
the first `Ne = we.length`) are all `≥ 0` (non-strict test); the value
returned is the current iterate together with the full multiplier
vector — in particular every multiplier of an active inequality row is
non-negative at every normal return. -/
theorem QP_activeset_return_iff {n : ℕ} (G : Matrix (Fin n) (Fin n) ℚ)
    (c : Vec n) (we : List (Row n)) (fuel : ℕ) (st : AState n) (x : Vec n)
    (l : List ℚ) :
    (QP_loop G c we fuel st = .ok x l ↔
      ∃ k, k < fuel ∧ ∃ st', QP_traj G c we k st = some st'
        ∧ QP_iter G c we st' = .done x l)
    ∧ (QP_iter G c we st = .done x l ↔
      ∃ p lam, QP_subproblem G c st.ws st.xk = some (p, lam)
        ∧ (∀ j, p j = 0)
        ∧ (∀ q ∈ lam.drop we.length, 0 ≤ q)
        ∧ x = st.xk ∧ l = lam)
    ∧ (∀ (ae ai : Option (List (Vec n) × List ℚ)) (x0opt : Option (Vec n)),
      QP_activeset fuel G c ae ai x0opt = .ok x l ↔
        (¬ (ae.isSome = true ∧ ¬ eqHolds
              (match ae with | none => [] | some p => p.1.zip p.2)
              (x0opt.getD fun _ => 0))
         ∧ ¬ (ai.isSome = true ∧ ¬ ineqHolds
              (match ai with | none => [] | some p => p.1.zip p.2)
              (x0opt.getD fun _ => 0))
         ∧ QP_loop G c (match ae with | none => [] | some p => p.1.zip p.2) fuel
            ⟨x0opt.getD fun _ => 0,
             (match ai with
              | none => ([], [])
              | some p => active_set p.1 p.2 (x0opt.getD fun _ => 0)).1,
             (match ai with
              | none => ([], [])
              | some p => active_set p.1 p.2 (x0opt.getD fun _ => 0)).2,
             (match ae with | none => [] | some p => p.1.zip p.2) ++
               (match ai with
                | none => ([], [])
                | some p => active_set p.1 p.2 (x0opt.getD fun _ => 0)).1⟩
            = .ok x l)) := by
  refine ⟨?_, ?_, ?_⟩
  case refine_3 =>
    intro ae ai x0opt
    simp only [QP_activeset]
    split_ifs with h1 h2
    · constructor
      · intro hco
        cases hco
      · rintro ⟨hn1, -, -⟩
        exact absurd h1 hn1
    · constructor
      · intro hco
        cases hco
      · rintro ⟨-, hn2, -⟩
        exact absurd h2 hn2
    · constructor
      · intro hok
        exact ⟨h1, h2, hok⟩
      · rintro ⟨-, -, hok⟩
        exact hok
  · induction fuel generalizing st with
    | zero => simp [QP_loop]
    | succ fuel ih =>
      rw [QP_loop]
      cases hit : QP_iter G c we st with
      | done x' l' =>
        simp only []
        constructor
        · intro h
          refine ⟨0, Nat.succ_pos _, st, rfl, ?_⟩
          rw [hit]
          cases h
          rfl
        · rintro ⟨k, hk, st', htraj, hdone⟩
          cases k with
          | zero =>
            rw [QP_traj] at htraj
            cases htraj
            rw [hit] at hdone
            cases hdone
            rfl
          | succ k =>
            rw [QP_traj, hit] at htraj
            cases htraj
      | fail =>
        simp only []
        constructor
        · intro h; cases h
        · rintro ⟨k, hk, st', htraj, hdone⟩
          cases k with
          | zero =>
            rw [QP_traj] at htraj
            cases htraj
            rw [hit] at hdone
            cases hdone
          | succ k =>
            rw [QP_traj, hit] at htraj
            cases htraj
      | next st2 =>
        simp only []
        rw [ih st2]
        constructor
        · rintro ⟨k, hk, st', htraj, hdone⟩
          exact ⟨k + 1, Nat.succ_lt_succ hk, st', by rw [QP_traj, hit]; exact htraj, hdone⟩
        · rintro ⟨k, hk, st', htraj, hdone⟩
          cases k with
          | zero =>
            rw [QP_traj] at htraj
            cases htraj
            rw [hit] at hdone
            cases hdone
          | succ k =>
            rw [QP_traj, hit] at htraj
            exact ⟨k, Nat.lt_of_succ_lt_succ hk, st', htraj, hdone⟩
  · rw [QP_iter]
    cases hsub : QP_subproblem G c st.ws st.xk with
    | none => simp
    | some plam =>
      obtain ⟨p, lam⟩ := plam
      simp only []
      split_ifs with hz hnn
      · constructor
        · intro h
          cases h
          first
            | exact ⟨p, lam, rfl, hz, hnn, rfl, rfl⟩
            | exact ⟨p, l, rfl, hz, hnn, rfl, rfl⟩
        · rintro ⟨p', lam', heq, -, -, hx, hl⟩
          cases heq
          subst hx hl
          rfl
      · constructor
        · intro h; first | exact h.elim | cases h
        · rintro ⟨p', lam', heq, -, hq, -, hl⟩
          cases heq
          exact absurd hq hnn
      all_goals
        constructor
        · intro h; first | exact h.elim | cases h
        · rintro ⟨p', lam', heq, hz', -, -, -⟩
          cases heq
          exact absurd hz' hz

/- ------------------------------------------------------------------
   C3: the subproblem solves the Newton-KKT system.
   ------------------------------------------------------------------ -/

/-- C3: when the KKT matrix is invertible, the raw solution of
`QP_subproblem` satisfies `G p - Aᵀ λ = -(G xk + c)` and `A p = 0`
before the snap; the returned pair is that solution with every
component of magnitude below `tol_zero` replaced by `0`, split into the
first `Nx` components (`p_k`) and the remaining `M` components
(`lambda_k`). -/
theorem QP_subproblem_kkt {n : ℕ} (G : Matrix (Fin n) (Fin n) ℚ)
    (c xk : Vec n) (ws : List (Row n)) (hdet : (kktL G ws).det ≠ 0) :
    G.mulVec (fun j => kktSol G c xk ws (Sum.inl j))
        - (kktA ws)ᵀ.mulVec (fun j => kktSol G c xk ws (Sum.inr j))
      = -(G.mulVec xk + c)
    ∧ (kktA ws).mulVec (fun j => kktSol G c xk ws (Sum.inl j)) = 0
    ∧ QP_subproblem G c ws xk =
        some (fun j => snap (kktSol G c xk ws (Sum.inl j)),
              List.ofFn fun i => snap (kktSol G c xk ws (Sum.inr i))) := by
  have hsolve : (kktL G ws).mulVec (kktSol G c xk ws) = kktR G c xk ws := by
    rw [kktSol]
    exact cInv_solves _ hdet _
  have hdecomp : kktSol G c xk ws =
      Sum.elim (fun j => kktSol G c xk ws (Sum.inl j))
        (fun j => kktSol G c xk ws (Sum.inr j)) := by
    funext i
    cases i <;> rfl
  rw [hdecomp, kktL_mulVec] at hsolve
  refine ⟨?_, ?_, ?_⟩
  · funext i
    have := congrFun hsolve (Sum.inl i)
    simpa [kktR] using this
  · funext i
    have := congrFun hsolve (Sum.inr i)
    simpa [kktR] using this
  · rw [QP_subproblem, if_neg hdet]

theorem QP_subproblem_kkt_witness :
    (kktL !![(2:ℚ)] ([] : List (Row 1))).det ≠ 0
    ∧ (kktA ([] : List (Row 1))).mulVec
        (fun j => kktSol !![(2:ℚ)] ![5] ![3] [] (Sum.inl j)) = 0 := by
  have hdet : (kktL !![(2:ℚ)] ([] : List (Row 1))).det ≠ 0 := by
    rw [det_kktL_nil]
    norm_num [Matrix.det_fin_one]
  exact ⟨hdet, (QP_subproblem_kkt !![(2:ℚ)] ![5] ![3] [] hdet).2.1⟩

/- ------------------------------------------------------------------
   C10: empty active set means a zero step returns at once.
   ------------------------------------------------------------------ -/

/-- C10: when the step is all zeros after the snap and the active set is
empty (the working set is just the equality rows), the inequality
multiplier block is the empty vector, the non-negativity test holds
vacuously, and the iteration returns `(x_k, lambda_k)` at once. -/
theorem QP_iter_zero_step_empty_active {n : ℕ} (G : Matrix (Fin n) (Fin n) ℚ)
    (c : Vec n) (we : List (Row n)) (st : AState n) (p : Vec n)
    (lam : List ℚ)
    (hact : st.act = []) (hws : st.ws = we ++ st.act)
    (hsub : QP_subproblem G c st.ws st.xk = some (p, lam))
    (hz : ∀ j, p j = 0) :
    QP_iter G c we st = .done st.xk lam := by
  have hlen : lam.length = we.length := by
    rw [QP_subproblem_length _ _ _ _ _ _ hsub, hws, hact, List.append_nil]
  have hdrop : lam.drop we.length = [] := by
    rw [← hlen, List.drop_length]
  rw [QP_iter, hsub]
  simp only [hdrop]
  rw [if_pos hz, if_pos (by intro q hq; cases hq)]

/- ------------------------------------------------------------------
   Properties of the argmin scan.
   ------------------------------------------------------------------ -/

theorem argminAux_correct : ∀ (rest : List ℚ) (i bi : ℕ) (bv : ℚ),
    (argminAux i bi bv rest = bi ∧ ∀ k, k < rest.length → bv ≤ rest.getD k 0)
    ∨ (∃ k, k < rest.length ∧ argminAux i bi bv rest = i + k
        ∧ rest.getD k 0 < bv
        ∧ (∀ m, m < rest.length → rest.getD k 0 ≤ rest.getD m 0)
        ∧ (∀ m, m < k → rest.getD k 0 < rest.getD m 0)) := by
  intro rest
  induction rest with
  | nil =>
    intro i bi bv
    left
    exact ⟨rfl, fun k hk => absurd hk (by simp)⟩
  | cons v rest ih =>
    intro i bi bv
    rw [argminAux]
    split_ifs with hv
    · rcases ih (i + 1) i v with ⟨heq, hmin⟩ | ⟨k, hk, heq, hlt, hmin, hfirst⟩
      · right
        refine ⟨0, by simp, by rw [heq, Nat.add_zero], by simpa using hv, ?_, ?_⟩
        · intro m hm
          cases m with
          | zero => simp
          | succ m =>
            simp only [List.getD_cons_zero, List.getD_cons_succ]
            exact hmin m (by simpa using hm)
        · intro m hm
          exact absurd hm (Nat.not_lt_zero m)
      · right
        refine ⟨k + 1, by simpa using hk, by rw [heq]; omega, ?_, ?_, ?_⟩
        · simp only [List.getD_cons_succ]
          exact lt_trans hlt hv
        · intro m hm
          cases m with
          | zero =>
            simp only [List.getD_cons_succ, List.getD_cons_zero]
            exact le_of_lt hlt
          | succ m =>
            simp only [List.getD_cons_succ]
            exact hmin m (by simpa using hm)
        · intro m hm
          cases m with
          | zero =>
            simp only [List.getD_cons_succ, List.getD_cons_zero]
            exact hlt
          | succ m =>
            simp only [List.getD_cons_succ]
            exact hfirst m (by omega)
    · rcases ih (i + 1) bi bv with ⟨heq, hmin⟩ | ⟨k, hk, heq, hlt, hmin, hfirst⟩
      · left
        refine ⟨heq, ?_⟩
        intro k hk
        cases k with
        | zero => simpa using not_lt.mp hv
        | succ k =>
          simp only [List.getD_cons_succ]
          exact hmin k (by simpa using hk)
      · right
        refine ⟨k + 1, by simpa using hk, by rw [heq]; omega, ?_, ?_, ?_⟩
        · simp only [List.getD_cons_succ]
          exact hlt
        · intro m hm
          cases m with
          | zero =>
            simp only [List.getD_cons_succ, List.getD_cons_zero]
            exact le_of_lt (lt_of_lt_of_le hlt (not_lt.mp hv))
          | succ m =>
            simp only [List.getD_cons_succ]
            exact hmin m (by simpa using hm)
        · intro m hm
          cases m with
          | zero =>
            simp only [List.getD_cons_succ, List.getD_cons_zero]
            exact lt_of_lt_of_le hlt (not_lt.mp hv)
          | succ m =>
            simp only [List.getD_cons_succ]
            exact hfirst m (by omega)

/-- `argminIdx` returns the index of the first minimal element. -/
theorem argminIdx_spec (l : List ℚ) (hne : l ≠ []) :
    argminIdx l < l.length
    ∧ (∀ m, m < l.length → l.getD (argminIdx l) 0 ≤ l.getD m 0)
    ∧ (∀ m, m < argminIdx l → l.getD (argminIdx l) 0 < l.getD m 0) := by
  cases l with
  | nil => exact absurd rfl hne
  | cons v rest =>
    rw [argminIdx]
    rcases argminAux_correct rest 1 0 v with ⟨heq, hmin⟩ | ⟨k, hk, heq, hlt, hmin, hfirst⟩
    · rw [heq]
      refine ⟨by simp, ?_, ?_⟩
      · intro m hm
        cases m with
        | zero => simp
        | succ m =>
          simp only [List.getD_cons_zero, List.getD_cons_succ]
          exact hmin m (by simpa using hm)
      · intro m hm
        exact absurd hm (Nat.not_lt_zero m)
    · rw [heq]
      have h1k : 1 + k = k + 1 := by omega
      rw [h1k]
      refine ⟨by simpa using hk, ?_, ?_⟩
      · intro m hm
        cases m with
        | zero =>
          simp only [List.getD_cons_succ, List.getD_cons_zero]
          exact le_of_lt hlt
        | succ m =>
          simp only [List.getD_cons_succ]
          exact hmin m (by simpa using hm)
      · intro m hm
        cases m with
        | zero =>
          simp only [List.getD_cons_succ, List.getD_cons_zero]
          exact hlt
        | succ m =>
          simp only [List.getD_cons_succ]
          exact hfirst m (by omega)

/- ------------------------------------------------------------------
   C5: the drop branch removes the most negative multiplier.
   ------------------------------------------------------------------ -/

/-- C5: when the post-snap step is all zeros and some inequality
multiplier is negative, the iteration moves the active row at the
argmin of the inequality-multiplier block (the first most-negative
index) from `active` to the end of `inactive`, rebuilds the working set
as the equality rows followed by the remaining active rows, and leaves
`x_k` unchanged.  The argmin index is a real active-row index, its
multiplier is negative, minimal among the block, and strictly below
every earlier entry (first on ties). -/
theorem QP_iter_drop_most_negative {n : ℕ} (G : Matrix (Fin n) (Fin n) ℚ)
    (c : Vec n) (we : List (Row n)) (st : AState n) (p : Vec n)
    (lam : List ℚ)
    (hws : st.ws = we ++ st.act)
    (hsub : QP_subproblem G c st.ws st.xk = some (p, lam))
    (hz : ∀ j, p j = 0)
    (hneg : ¬ ∀ q ∈ lam.drop we.length, 0 ≤ q) :
    QP_iter G c we st = .next
        ⟨st.xk,
         st.act.eraseIdx (argminIdx (lam.drop we.length)),
         st.inact ++ [st.act.getD (argminIdx (lam.drop we.length)) default],
         we ++ st.act.eraseIdx (argminIdx (lam.drop we.length))⟩
    ∧ argminIdx (lam.drop we.length) < st.act.length
    ∧ (lam.drop we.length).getD
        (argminIdx (lam.drop we.length)) 0 < 0
    ∧ (∀ m, m < (lam.drop we.length).length →
        (lam.drop we.length).getD
          (argminIdx (lam.drop we.length)) 0
          ≤ (lam.drop we.length).getD m 0)
    ∧ (∀ m, m < argminIdx (lam.drop we.length) →
        (lam.drop we.length).getD
          (argminIdx (lam.drop we.length)) 0
          < (lam.drop we.length).getD m 0) := by
  have hne : lam.drop we.length ≠ [] := by
    intro hnil
    exact hneg fun q hq => by rw [hnil] at hq; cases hq
  have hlen : (lam.drop we.length).length = st.act.length := by
    rw [List.length_drop, QP_subproblem_length _ _ _ _ _ _ hsub, hws,
      List.length_append]
    omega
  obtain ⟨hbound, hmin, hfirst⟩ := argminIdx_spec _ hne
  have hnegmin : (lam.drop we.length).getD
      (argminIdx (lam.drop we.length)) 0 < 0 := by
    push_neg at hneg
    obtain ⟨q, hqmem, hq⟩ := hneg
    obtain ⟨⟨m, hm⟩, hget⟩ := List.mem_iff_get.mp hqmem
    have hq0 : (lam.drop we.length).getD m 0 = q := by
      rw [List.getD_eq_getElem _ _ hm]
      simpa using hget
    have h1 := hmin m hm
    rw [hq0] at h1
    exact lt_of_le_of_lt h1 hq
  refine ⟨?_, by omega, hnegmin, hmin, hfirst⟩
  rw [QP_iter, hsub]
  simp only []
  rw [if_pos hz, if_neg hneg]

/- ------------------------------------------------------------------
   Concrete one-dimensional subproblem computations, used to exercise
   the iteration on explicit inputs.
   ------------------------------------------------------------------ -/

theorem det_kktL_one_nil : (kktL !![(1:ℚ)] ([] : List (Row 1))).det ≠ 0 := by
  rw [det_kktL_nil]
  norm_num [Matrix.det_fin_one]

/-- The KKT matrix `[[1, -1], [1, 0]]` of the working set `{x ≥ b}` for
`G = [[1]]` is nonsingular (explicit right inverse). -/
theorem det_kktL_one_single (b : ℚ) :
    (kktL !![(1:ℚ)] [((![1] : Vec 1), b)]).det ≠ 0 := by
  apply det_ne_zero_of_right_inv _
    (Matrix.fromBlocks !![0] !![1] !![-1] !![1])
  ext i j
  rcases i with i | i <;> rcases j with j | j <;> fin_cases i <;> fin_cases j <;>
    simp [kktL, kktA, Matrix.mul_apply, Fintype.sum_sum_type, Fin.sum_univ_one,
      Matrix.fromBlocks, Matrix.one_apply]

/-- The raw KKT solution for an empty working set and `G = [[1]]`. -/
theorem kktSol_one_nil (c0 x0 : ℚ) :
    kktSol !![(1:ℚ)] ![c0] ![x0] [] = Sum.elim ![-(x0 + c0)] 0 := by
  apply cInv_unique _ det_kktL_one_nil
  rw [kktL_mulVec]
  funext i
  rcases i with i | i
  · fin_cases i
    simp [kktR, Matrix.mulVec, Matrix.dotProduct, Fin.sum_univ_one]
    try ring
  · exact i.elim0

/-- Explicit value of the subproblem with an empty working set, `G = [[1]]`. -/
theorem QP_subproblem_one_nil (c0 x0 : ℚ) :
    QP_subproblem !![(1:ℚ)] ![c0] [] ![x0] =
      some (fun _ => snap (-(x0 + c0)), []) := by
  rw [QP_subproblem, if_neg det_kktL_one_nil, kktSol_one_nil]
  simp only [Option.some.injEq, Prod.mk.injEq]
  constructor
  · funext j
    fin_cases j
    simp
  · rfl

/-- The raw KKT solution for the working set `{x ≥ b}` and `G = [[1]]`. -/
theorem kktSol_one_single (b c0 x0 : ℚ) :
    kktSol !![(1:ℚ)] ![c0] ![x0] [((![1] : Vec 1), b)] =
      Sum.elim ![0] ![x0 + c0] := by
  apply cInv_unique _ (det_kktL_one_single b)
  rw [kktL_mulVec]
  funext i
  rcases i with i | i <;> fin_cases i <;>
    simp [kktR, kktA, Matrix.mulVec, Matrix.dotProduct, Fin.sum_univ_one,
      Matrix.transpose] <;> ring

/-- Explicit value of the subproblem with working set `{x ≥ b}` (one
active row), `G = [[1]]`: zero step, multiplier `x0 + c0`. -/
theorem QP_subproblem_one_single (b c0 x0 : ℚ) :
    QP_subproblem !![(1:ℚ)] ![c0] [((![1] : Vec 1), b)] ![x0] =
      some (fun _ => snap 0, [snap (x0 + c0)]) := by
  rw [QP_subproblem, if_neg (det_kktL_one_single b), kktSol_one_single]
  simp only [Option.some.injEq, Prod.mk.injEq]
  constructor
  · funext j
    fin_cases j
    simp
  · have h5 : (List.ofFn fun i : Fin ([((![1] : Vec 1), b)].length) =>
        snap ((Sum.elim ![(0:ℚ)] ![x0 + c0]) (Sum.inr i)))
        = [snap ((Sum.elim ![(0:ℚ)] ![x0 + c0]) (Sum.inr 0))] := rfl
    rw [h5]
    simp

theorem QP_iter_zero_step_empty_active_witness :
    QP_iter !![(1:ℚ)] ![0] [] ⟨![0], [], [], []⟩ = .done ![0] [] := by
  have hsub := QP_subproblem_one_nil 0 0
  exact QP_iter_zero_step_empty_active !![(1:ℚ)] ![0] [] ⟨![0], [], [], []⟩
    _ _ rfl rfl hsub (by intro j; norm_num [snap_zero])

theorem QP_iter_drop_most_negative_witness :
    QP_iter !![(1:ℚ)] ![-1] [] ⟨![0], [((![1] : Vec 1), 0)], [], [((![1] : Vec 1), 0)]⟩
      = .next ⟨![0], [], [((![1] : Vec 1), 0)], []⟩ := by
  have hsub : QP_subproblem !![(1:ℚ)] ![-1] [((![1] : Vec 1), 0)] ![0] =
      some (fun _ => (0:ℚ), [(-1:ℚ)]) := by
    rw [QP_subproblem_one_single]
    norm_num [snap, tol_zero]
  have h := (QP_iter_drop_most_negative !![(1:ℚ)] ![-1] []
    ⟨![0], [((![1] : Vec 1), 0)], [], [((![1] : Vec 1), 0)]⟩
    _ _ rfl hsub (fun j => rfl) ?hneg).1
  · simpa [argminIdx, argminAux, List.eraseIdx] using h
  case hneg =>
    intro hco
    have := hco (-1) (by simp)
    norm_num at this

/- ------------------------------------------------------------------
   C6: working-set invariants.
   ------------------------------------------------------------------ -/

/-- Rows of `(kktA ws).mulVec` are dot products with the row coefficients. -/
theorem kktA_mulVec_apply {n : ℕ} (ws : List (Row n)) (u : Vec n)
    (i : Fin ws.length) : (kktA ws).mulVec u i = dot (ws.get i).1 u := rfl

theorem ws_rows_dot_zero {n : ℕ} (ws : List (Row n)) (u : Vec n)
    (h : (kktA ws).mulVec u = 0) : ∀ r ∈ ws, dot r.1 u = 0 := by
  intro r hr
  obtain ⟨i, rfl⟩ := List.mem_iff_get.mp hr
  have hi := congrFun h i
  rw [kktA_mulVec_apply] at hi
  exact hi

theorem dot_step {n : ℕ} (a x p : Vec n) (al : ℚ) :
    dot a (fun j => x j + p j * al) = dot a x + dot a p * al := by
  have h : ∀ j : Fin n, a j * (x j + p j * al) = a j * x j + a j * p j * al :=
    fun j => by ring
  simp only [dot, h, Finset.sum_add_distrib, Finset.sum_mul]

theorem perm_getD_cons_eraseIdx {α : Type*} [Inhabited α] (l : List α) (k : ℕ)
    (h : k < l.length) : l.Perm (l.getD k default :: l.eraseIdx k) := by
  rw [List.eraseIdx_eq_take_drop_succ, List.getD_eq_getElem _ _ h]
  conv_lhs => rw [← List.take_append_drop k l]
  have hd : l.drop k = l[k] :: l.drop (k + 1) := (List.getElem_cons_drop l k h).symm
  rw [hd]
  exact List.perm_middle

/-- Case analysis of the step-length scan: either no row updated the
accumulator, or the result is the ratio of the last updating row, which
has a negative directional derivative and a ratio below `1`. -/
theorem alphaLoop_cases {n : ℕ} (xk pk : Vec n) :
    ∀ (rows : List (Row n)) (i0 : ℕ) (acc : ℚ × Option ℕ),
    alphaLoop xk pk i0 acc rows = acc
    ∨ ∃ k, k < rows.length
        ∧ alphaLoop xk pk i0 acc rows =
            (((rows.getD k default).2 - dot (rows.getD k default).1 xk) /
              dot (rows.getD k default).1 pk, some (i0 + k))
        ∧ dot (rows.getD k default).1 pk < 0
        ∧ ((rows.getD k default).2 - dot (rows.getD k default).1 xk) /
            dot (rows.getD k default).1 pk < 1 := by
  intro rows
  induction rows with
  | nil =>
    intro i0 acc
    left
    rfl
  | cons row rest ih =>
    intro i0 acc
    rw [alphaLoop]
    split_ifs with hneg hlt
    · rcases ih (i0 + 1)
        ((row.2 - dot row.1 xk) / dot row.1 pk, some i0) with h | ⟨k, hk, heq, h1, h2⟩
      · right
        refine ⟨0, by simp, ?_, by simpa using hneg, by simpa using hlt⟩
        rw [h]
        simp
      · right
        refine ⟨k + 1, by simpa using hk, ?_, by simpa using h1, by simpa using h2⟩
        rw [heq]
        simp only [List.getD_cons_succ]
        congr 2
        omega
    · rcases ih (i0 + 1) acc with h | ⟨k, hk, heq, h1, h2⟩
      · left
        exact h
      · right
        refine ⟨k + 1, by simpa using hk, ?_, by simpa using h1, by simpa using h2⟩
        rw [heq]
        simp only [List.getD_cons_succ]
        congr 2
        omega
    · rcases ih (i0 + 1) acc with h | ⟨k, hk, heq, h1, h2⟩
      · left
        exact h
      · right
        refine ⟨k + 1, by simpa using hk, ?_, by simpa using h1, by simpa using h2⟩
        rw [heq]
        simp only [List.getD_cons_succ]
        congr 2
        omega

theorem alphaScan_cases {n : ℕ} (xk pk : Vec n) (rows : List (Row n)) :
    alphaScan xk pk rows = (1, none)
    ∨ ∃ k, k < rows.length
        ∧ alphaScan xk pk rows =
            (((rows.getD k default).2 - dot (rows.getD k default).1 xk) /
              dot (rows.getD k default).1 pk, some k)
        ∧ dot (rows.getD k default).1 pk < 0
        ∧ ((rows.getD k default).2 - dot (rows.getD k default).1 xk) /
            dot (rows.getD k default).1 pk < 1 := by
  rcases alphaLoop_cases xk pk rows 0 (1, none) with h | ⟨k, hk, heq, h1, h2⟩
  · left
    exact h
  · right
    refine ⟨k, hk, ?_, h1, h2⟩
    rw [alphaScan, heq]
    congr 2
    omega

/-- Inversion of a successful subproblem solve. -/
theorem QP_subproblem_eq_some {n : ℕ} (G : Matrix (Fin n) (Fin n) ℚ)
    (c xk : Vec n) (ws : List (Row n)) (p : Vec n) (lam : List ℚ)
    (h : QP_subproblem G c ws xk = some (p, lam)) :
    (kktL G ws).det ≠ 0
    ∧ p = (fun j => snap (kktSol G c xk ws (Sum.inl j)))
    ∧ lam = List.ofFn (fun i => snap (kktSol G c xk ws (Sum.inr i))) := by
  rw [QP_subproblem] at h
  by_cases hdet : (kktL G ws).det = 0
  · rw [if_pos hdet] at h
    cases h
  · rw [if_neg hdet] at h
    refine ⟨hdet, ?_, ?_⟩
    · have := congrArg (fun z => Option.map Prod.fst z) h
      simpa using this.symm
    · have := congrArg (fun z => Option.map Prod.snd z) h
      simpa using this.symm

/-- The invariant of the main loop: the active and inactive rows
together are exactly the inequality rows (no duplication, none lost),
the working set is the equality rows followed by the active rows, and
the iterate satisfies every working-set row with equality. -/
def WSInv {n : ℕ} (we ir : List (Row n)) (st : AState n) : Prop :=
  (st.act ++ st.inact).Perm ir
  ∧ st.ws = we ++ st.act
  ∧ ∀ r ∈ st.ws, dot r.1 st.xk = r.2

/-- The `tol_zero` snap leaves the current KKT solution unchanged (the
exact-arithmetic reading of the spec, where the snap only removes
floating noise). -/
def snapNeutral {n : ℕ} (G : Matrix (Fin n) (Fin n) ℚ) (c : Vec n)
    (st : AState n) : Prop :=
  ∀ i, snap (kktSol G c st.xk st.ws i) = kktSol G c st.xk st.ws i

/-- One loop pass preserves the working-set invariant (exact
arithmetic: the snap does not perturb the KKT solution). -/
theorem WSInv_step {n : ℕ} (G : Matrix (Fin n) (Fin n) ℚ) (c : Vec n)
    (we ir : List (Row n)) (st st' : AState n)
    (hinv : WSInv we ir st) (hsnap : snapNeutral G c st)
    (hstep : QP_iter G c we st = .next st') : WSInv we ir st' := by
  obtain ⟨hperm, hws, hsat⟩ := hinv
  cases hsub : QP_subproblem G c st.ws st.xk with
  | none =>
    rw [QP_iter, hsub] at hstep
    cases hstep
  | some plam =>
    obtain ⟨p, lam⟩ := plam
    obtain ⟨hdet, hp, hlam⟩ := QP_subproblem_eq_some G c st.xk st.ws p lam hsub
    have hpk : p = fun j => kktSol G c st.xk st.ws (Sum.inl j) := by
      rw [hp]
      funext j
      exact hsnap (Sum.inl j)
    have hA0 : (kktA st.ws).mulVec
        (fun j => kktSol G c st.xk st.ws (Sum.inl j)) = 0 :=
      (QP_subproblem_kkt G c st.xk st.ws hdet).2.1
    have hdotp : ∀ r ∈ st.ws, dot r.1 p = 0 := by
      rw [hpk]
      exact ws_rows_dot_zero _ _ hA0
    rw [QP_iter, hsub] at hstep
    simp only [] at hstep
    by_cases hz : ∀ j, p j = 0
    · rw [if_pos hz] at hstep
      by_cases hnn : ∀ q ∈ lam.drop we.length, 0 ≤ q
      · rw [if_pos hnn] at hstep
        cases hstep
      · rw [if_neg hnn] at hstep
        have hne : lam.drop we.length ≠ [] := by
          intro hnil
          exact hnn fun q hq => by rw [hnil] at hq; cases hq
        have hlen : (lam.drop we.length).length = st.act.length := by
          rw [List.length_drop, QP_subproblem_length _ _ _ _ _ _ hsub, hws,
            List.length_append]
          omega
        have hbound : argminIdx (lam.drop we.length) < st.act.length := by
          rw [← hlen]
          exact (argminIdx_spec _ hne).1
        cases hstep
        refine ⟨?_, rfl, ?_⟩
        · have h2 : st.act.Perm
              (st.act.getD (argminIdx (lam.drop we.length)) default ::
                st.act.eraseIdx (argminIdx (lam.drop we.length))) :=
            perm_getD_cons_eraseIdx _ _ hbound
          have h3 :
              (st.act.eraseIdx (argminIdx (lam.drop we.length)) ++
                (st.inact ++
                  [st.act.getD (argminIdx (lam.drop we.length)) default])).Perm
              (st.act ++ st.inact) := by
            have h4 := List.perm_append_singleton
              (st.act.getD (argminIdx (lam.drop we.length)) default)
              (st.act.eraseIdx (argminIdx (lam.drop we.length)) ++ st.inact)
            have h5 : st.act.eraseIdx (argminIdx (lam.drop we.length)) ++
                  (st.inact ++
                    [st.act.getD (argminIdx (lam.drop we.length)) default])
                = (st.act.eraseIdx (argminIdx (lam.drop we.length)) ++ st.inact)
                    ++ [st.act.getD (argminIdx (lam.drop we.length)) default] :=
              (List.append_assoc _ _ _).symm
            rw [h5]
            exact h4.trans (List.Perm.append_right st.inact h2.symm)
          exact h3.trans hperm
        · intro r hr
          have hr2 : r ∈ st.ws := by
            rw [hws]
            rcases List.mem_append.mp hr with h | h
            · exact List.mem_append.mpr (Or.inl h)
            · exact List.mem_append.mpr (Or.inr (List.mem_of_mem_eraseIdx h))
          exact hsat r hr2
    · rw [if_neg hz] at hstep
      by_cases halpha : (alphaScan st.xk p st.inact).1 = 1
      · rw [if_pos halpha] at hstep
        cases hstep
        refine ⟨hperm, hws, ?_⟩
        intro r hr
        rw [dot_step, hsat r hr, hdotp r hr]
        ring
      · rw [if_neg halpha] at hstep
        rcases alphaScan_cases st.xk p st.inact with hcase | ⟨k, hk, heq, hneg, hlt⟩
        · rw [hcase] at halpha
          simp at halpha
        · rw [heq] at hstep halpha
          simp only [] at hstep
          cases hstep
          have hperm2 : st.inact.Perm
              (st.inact.getD k default :: st.inact.eraseIdx k) :=
            perm_getD_cons_eraseIdx _ _ hk
          refine ⟨?_, rfl, ?_⟩
          · have h6 : ((st.act ++ [st.inact.getD k default]) ++
                st.inact.eraseIdx k).Perm (st.act ++ st.inact) := by
              rw [List.append_assoc]
              exact List.Perm.append_left st.act hperm2.symm
            exact h6.trans hperm
          · intro r hr
            rcases List.mem_append.mp hr with h | h
            · -- a row of the old working set (equalities)
              have hr2 : r ∈ st.ws := by
                rw [hws]
                exact List.mem_append.mpr (Or.inl h)
              rw [dot_step, hsat r hr2, hdotp r hr2]
              ring
            · rcases List.mem_append.mp h with h | h
              · have hr2 : r ∈ st.ws := by
                  rw [hws]
                  exact List.mem_append.mpr (Or.inr h)
                rw [dot_step, hsat r hr2, hdotp r hr2]
                ring
              · -- the newly activated blocking row
                have hr3 : r = st.inact.getD k default := by
                  cases h with
                  | head => rfl
                  | tail _ h2 => cases h2
                subst hr3
                have hne0 : dot (st.inact.getD k default).1 p ≠ 0 :=
                  ne_of_lt hneg
                have h7 : dot (st.inact.getD k default).1 p *
                    (((st.inact.getD k default).2 -
                      dot (st.inact.getD k default).1 st.xk) /
                      dot (st.inact.getD k default).1 p)
                    = (st.inact.getD k default).2 -
                      dot (st.inact.getD k default).1 st.xk := by
                  rw [mul_comm]
                  exact div_mul_cancel₀ _ hne0
                rw [dot_step, h7]
                ring

/-- C6: the loop invariants.  (i) A feasible start yields an initial
state in which the inequality rows are exactly partitioned between
active and inactive and the iterate satisfies every working-set row
with equality (which justifies the zero bottom block of the KKT
right-hand side).  (ii) One loop pass preserves this, in exact
arithmetic (nonsingular solve, snap leaving the solution unchanged).
(iii) Hence every state reached along the loop trajectory — i.e. every
state at which a subproblem is solved — satisfies the invariant. -/
theorem QP_working_set_invariant {n : ℕ} (G : Matrix (Fin n) (Fin n) ℚ)
    (c : Vec n) (we ir : List (Row n)) (aiL : List (Vec n)) (biL : List ℚ)
    (x0 : Vec n) (st st' : AState n) (k : ℕ) :
    (eqHolds we x0 → ineqHolds (aiL.zip biL) x0 →
      WSInv we (aiL.zip biL)
        ⟨x0, (active_set aiL biL x0).1, (active_set aiL biL x0).2,
         we ++ (active_set aiL biL x0).1⟩)
    ∧ (WSInv we ir st → snapNeutral G c st →
        QP_iter G c we st = .next st' → WSInv we ir st')
    ∧ (WSInv we ir st →
        (∀ m st2, QP_traj G c we m st = some st2 → snapNeutral G c st2) →
        QP_traj G c we k st = some st' → WSInv we ir st') := by
  refine ⟨?_, fun h1 h2 h3 => WSInv_step G c we ir st st' h1 h2 h3, ?_⟩
  · intro he hi
    refine ⟨List.filter_append_perm _ _, rfl, ?_⟩
    intro r hr
    rcases List.mem_append.mp hr with h | h
    · have h2 := he r h
      linarith
    · have h2 := List.mem_filter.mp h
      have h3 := of_decide_eq_true h2.2
      linarith
  · induction k generalizing st with
    | zero =>
      intro h1 _ h3
      rw [QP_traj] at h3
      cases h3
      exact h1
    | succ k ih =>
      intro h1 h2 h3
      rw [QP_traj] at h3
      cases hit : QP_iter G c we st with
      | done x l =>
        rw [hit] at h3
        cases h3
      | fail =>
        rw [hit] at h3
        cases h3
      | next st2 =>
        rw [hit] at h3
        have hsn : snapNeutral G c st := h2 0 st (by rw [QP_traj])
        have h2' : ∀ m st3, QP_traj G c we m st2 = some st3 →
            snapNeutral G c st3 := by
          intro m st3 hm
          exact h2 (m + 1) st3 (by rw [QP_traj, hit]; exact hm)
        exact ih st2 (WSInv_step G c we ir st st2 h1 hsn hit) h2' h3

/-- The subproblem of the drop scenario: active row `x ≥ 0`, iterate
`x = 0`, linear cost `-x`: zero step, multiplier `-1`. -/
theorem sub_drop_example :
    QP_subproblem !![(1:ℚ)] ![-1] [((![1] : Vec 1), 0)] ![0] =
      some (fun _ => (0:ℚ), [(-1:ℚ)]) := by
  rw [QP_subproblem_one_single]
  norm_num [snap, tol_zero]

/-- The drop scenario takes one `next` step moving the active row to
the inactive list without moving `x_k` (computed directly). -/
theorem iter_drop_example :
    QP_iter !![(1:ℚ)] ![-1] []
      ⟨![0], [((![1] : Vec 1), 0)], [], [((![1] : Vec 1), 0)]⟩
      = .next ⟨![0], [], [((![1] : Vec 1), 0)], []⟩ := by
  have hneg : ¬ ∀ q ∈ [(-1:ℚ)], 0 ≤ q := by
    intro hco
    have := hco (-1) (by simp)
    norm_num at this
  simp only [QP_iter, sub_drop_example]
  simp [hneg, argminIdx, argminAux]

theorem QP_working_set_invariant_witness :
    WSInv ([] : List (Row 1)) [((![1] : Vec 1), 0)]
      ⟨![0], (active_set [![1]] [0] ![0]).1, (active_set [![1]] [0] ![0]).2,
       [] ++ (active_set [![1]] [0] ![0]).1⟩
    ∧ WSInv ([] : List (Row 1)) [((![1] : Vec 1), 0)]
        ⟨![0], [], [((![1] : Vec 1), 0)], []⟩ := by
  constructor
  · exact (QP_working_set_invariant !![(1:ℚ)] ![-1] [] [((![1] : Vec 1), 0)]
      [![1]] [0] ![0] ⟨![0], [], [], []⟩ ⟨![0], [], [], []⟩ 0).1
      (fun r hr => by cases hr)
      (fun r hr => by
        have h1 : r = ((![1] : Vec 1), (0:ℚ)) := by
          cases hr with
          | head => rfl
          | tail _ h2 => cases h2
        subst h1
        simp [dot, Fin.sum_univ_one])
  · refine (QP_working_set_invariant !![(1:ℚ)] ![-1] [] [((![1] : Vec 1), 0)]
      [] [] ![0] ⟨![0], [((![1] : Vec 1), 0)], [], [((![1] : Vec 1), 0)]⟩
      ⟨![0], [], [((![1] : Vec 1), 0)], []⟩ 0).2.1 ⟨by simp, by simp, ?_⟩
      ?_ iter_drop_example
    · intro r hr
      have h1 : r = ((![1] : Vec 1), (0:ℚ)) := by
        cases hr with
        | head => rfl
        | tail _ h2 => cases h2
      subst h1
      simp [dot, Fin.sum_univ_one]
    · intro i
      rw [kktSol_one_single]
      rcases i with i | i <;> fin_cases i
      · simp [snap_zero]
      · norm_num [snap, tol_zero]

/- ------------------------------------------------------------------
   C9: the unconstrained call.
   ------------------------------------------------------------------ -/

theorem QP_loop_succ {n : ℕ} (G : Matrix (Fin n) (Fin n) ℚ) (c : Vec n)
    (we : List (Row n)) (fuel : ℕ) (st : AState n) :
    QP_loop G c we (fuel + 1) st =
      match QP_iter G c we st with
      | .done x l => .ok x l
      | .fail => .fail
      | .next st' => QP_loop G c we fuel st' := rfl

theorem QP_loop_zero {n : ℕ} (G : Matrix (Fin n) (Fin n) ℚ) (c : Vec n)
    (we : List (Row n)) (st : AState n) :
    QP_loop G c we 0 st = .fuelOut := rfl

theorem QP_loop_one {n : ℕ} (G : Matrix (Fin n) (Fin n) ℚ) (c : Vec n)
    (we : List (Row n)) (st : AState n) :
    QP_loop G c we 1 st =
      match QP_iter G c we st with
      | .done x l => .ok x l
      | .fail => .fail
      | .next st' => QP_loop G c we 0 st' := rfl

theorem QP_loop_two {n : ℕ} (G : Matrix (Fin n) (Fin n) ℚ) (c : Vec n)
    (we : List (Row n)) (st : AState n) :
    QP_loop G c we 2 st =
      match QP_iter G c we st with
      | .done x l => .ok x l
      | .fail => .fail
      | .next st' => QP_loop G c we 1 st' := rfl

/-- C9, counterexample to the claim as stated: for `G = [[1]]`, `c = 0`
(an invertible `G`), the unconstrained defaulted call already returns
on the very first iteration (the first step is zero), not after two
iterations: one unit of fuel suffices and yields `ok`. -/
theorem QP_activeset_unconstrained_counterexample :
    QP_activeset 1 !![(1:ℚ)] ![0] none none none = .ok ![0] [] := by
  have hx : (fun _ : Fin 1 => (0:ℚ)) = ![0] := by
    funext j
    fin_cases j
    rfl
  have hsub : QP_subproblem !![(1:ℚ)] ![0] [] ![0] =
      some (fun _ : Fin 1 => (0:ℚ), []) := by
    have h5 : (fun _ : Fin 1 => snap (-((0:ℚ) + 0))) = fun _ : Fin 1 => (0:ℚ) := by
      funext j
      norm_num [snap_zero]
    rw [QP_subproblem_one_nil, h5]
  have hi : QP_iter !![(1:ℚ)] ![0] [] ⟨![0], [], [], []⟩ = .done ![0] [] := by
    simp only [QP_iter]
    rw [hsub]
    simp
  simp only [QP_activeset, Option.isSome_none, Bool.false_eq_true, false_and,
    if_false, Option.getD_none, List.nil_append]
  rw [hx, QP_loop_one, hi]

/-- C9, amended: for every invertible `G` and every `c` whose Newton
point survives the snap (`snap ∘ v ≠ 0` where `G v = -c`), the
unconstrained defaulted call takes the full Newton step in the first
iteration (no inactive row can block it), obtains a zero step in the
second, vacuously passes the multiplier test, and returns
`x* = snap ∘ v` (so `G x* + c = 0` up to the snap) with an empty
multiplier vector — exactly two iterations: fuel `2` returns `ok`,
fuel `1` is still running.  (When `snap ∘ v = 0`, e.g. `c = 0`, it
returns after one iteration instead — see the counterexample.) -/
theorem QP_activeset_unconstrained_two_iterations {n : ℕ}
    (G : Matrix (Fin n) (Fin n) ℚ) (c v : Vec n)
    (hdet : G.det ≠ 0) (hv : G.mulVec v = -c)
    (hnz : ¬ ∀ j, snap (v j) = 0) :
    QP_activeset 2 G c none none none = .ok (fun j => snap (v j)) []
    ∧ QP_activeset 1 G c none none none = .fuelOut := by
  have hdet' : (kktL G ([] : List (Row n))).det ≠ 0 := by
    rw [det_kktL_nil]
    exact hdet
  have e0 : G.mulVec (fun _ : Fin n => (0:ℚ)) = fun _ => 0 := by
    funext i
    simp [Matrix.mulVec, Matrix.dotProduct]
  have hs₁ : (kktL G ([] : List (Row n))).mulVec (Sum.elim v 0) =
      kktR G c (fun _ => 0) [] := by
    rw [kktL_mulVec]
    funext i
    rcases i with i | i
    · simp only [Sum.elim_inl, kktR, Pi.sub_apply, Matrix.mulVec_zero, hv]
      simp [e0]
    · exact i.elim0
  have hsub₁ : QP_subproblem G c [] (fun _ => 0) =
      some (fun j => snap (v j), []) :=
    QP_subproblem_eq G c (fun _ => 0) [] (Sum.elim v 0) hdet' hs₁
  have hi1 : QP_iter G c [] ⟨(fun _ => 0), [], [], []⟩ =
      .next ⟨(fun j => snap (v j)), [], [], []⟩ := by
    simp only [QP_iter]
    rw [hsub₁]
    simp [hnz, alphaScan, alphaLoop]
  have hvsub : (fun j => v j - snap (v j)) = v - fun j => snap (v j) := rfl
  have hs₂ : (kktL G ([] : List (Row n))).mulVec
      (Sum.elim (fun j => v j - snap (v j)) 0) =
      kktR G c (fun j => snap (v j)) [] := by
    rw [kktL_mulVec]
    funext i
    rcases i with i | i
    · simp only [Sum.elim_inl, kktR, Pi.sub_apply, Matrix.mulVec_zero, hvsub,
        Matrix.mulVec_sub, hv]
      simp
      ring
    · exact i.elim0
  have hsub₂ : QP_subproblem G c [] (fun j => snap (v j)) =
      some (fun j => snap (v j - snap (v j)), []) :=
    QP_subproblem_eq G c (fun j => snap (v j)) []
      (Sum.elim (fun j => v j - snap (v j)) 0) hdet' hs₂
  have hz₂ : ∀ j, snap (v j - snap (v j)) = 0 := by
    intro j
    by_cases h : |v j| < tol_zero
    · rw [snap_eq_zero_of_abs_lt h, sub_zero]
      exact snap_eq_zero_of_abs_lt h
    · rw [snap_of_tol_le (le_of_not_lt h), sub_self]
      exact snap_zero
  have hi2 : QP_iter G c [] ⟨(fun j => snap (v j)), [], [], []⟩ =
      .done (fun j => snap (v j)) [] := by
    simp only [QP_iter]
    rw [hsub₂]
    simp [hz₂]
  constructor
  · simp only [QP_activeset, Option.isSome_none, Bool.false_eq_true, false_and,
      if_false, Option.getD_none, List.nil_append]
    rw [QP_loop_two, hi1]
    show QP_loop G c [] 1 ⟨(fun j => snap (v j)), [], [], []⟩ = _
    rw [QP_loop_one, hi2]
  · simp only [QP_activeset, Option.isSome_none, Bool.false_eq_true, false_and,
      if_false, Option.getD_none, List.nil_append]
    rw [QP_loop_one, hi1]
    rfl

theorem QP_activeset_unconstrained_two_iterations_witness :
    QP_activeset 2 !![(1:ℚ)] ![-1] none none none
      = .ok (fun j => snap ((![1] : Vec 1) j)) []
    ∧ QP_activeset 1 !![(1:ℚ)] ![-1] none none none = .fuelOut := by
  refine QP_activeset_unconstrained_two_iterations !![(1:ℚ)] ![-1] ![1] ?_ ?_ ?_
  · norm_num [Matrix.det_fin_one]
  · funext i
    fin_cases i
    simp [Matrix.mulVec, Matrix.dotProduct, Fin.sum_univ_one]
  · intro h
    have := h 0
    norm_num [snap, tol_zero] at this

/- ------------------------------------------------------------------
   C8: restarting from the returned optimum.
   ------------------------------------------------------------------ -/

/-- The subproblem of the trivial scenario: no constraints, `G = [[1]]`,
`c = 0`, iterate `0`. -/
theorem sub_nil_zero : QP_subproblem !![(1:ℚ)] ![0] [] ![0] =
    some (fun _ : Fin 1 => (0:ℚ), []) := by
  have h5 : (fun _ : Fin 1 => snap (-((0:ℚ) + 0))) = fun _ : Fin 1 => (0:ℚ) := by
    funext j
    norm_num [snap_zero]
  rw [QP_subproblem_one_nil, h5]

/-- C8, counterexample to the claim as stated: with the inequality
`x ≥ 0` given twice, the call from `x0 = 1` succeeds and returns
`x* = 0`, but the rerun from `x0 = x* = 0` makes both copies of the row
active, the restart KKT matrix is singular (`np.linalg.inv` raises),
and the rerun fails instead of returning `x*` in one iteration. -/
theorem QP_activeset_restart_counterexample :
    QP_activeset 2 !![(1:ℚ)] ![0] none (some ([![1], ![1]], [0, 0])) (some ![1])
      = .ok ![0] []
    ∧ QP_activeset 1 !![(1:ℚ)] ![0] none (some ([![1], ![1]], [0, 0])) (some ![0])
      = .fail := by
  have hsub1 : QP_subproblem !![(1:ℚ)] ![0] [] ![1] =
      some (fun _ : Fin 1 => (-1:ℚ), []) := by
    have h5 : (fun _ : Fin 1 => snap (-((1:ℚ) + 0))) = fun _ : Fin 1 => (-1:ℚ) := by
      funext j
      norm_num [snap, tol_zero]
    rw [QP_subproblem_one_nil, h5]
  have hz1 : ¬ ∀ j : Fin 1, (fun _ : Fin 1 => (-1:ℚ)) j = 0 := by
    intro h
    have := h 0
    norm_num at this
  have hscan : alphaScan ![1] (fun _ : Fin 1 => (-1:ℚ))
      [((![1] : Vec 1), (0:ℚ)), ((![1] : Vec 1), (0:ℚ))] = (1, none) := by
    norm_num [alphaScan, alphaLoop, dot, Fin.sum_univ_one]
  have hi1 : QP_iter !![(1:ℚ)] ![0] []
      ⟨![1], [], [((![1] : Vec 1), (0:ℚ)), ((![1] : Vec 1), (0:ℚ))], []⟩
      = .next ⟨![0], [], [((![1] : Vec 1), (0:ℚ)), ((![1] : Vec 1), (0:ℚ))], []⟩ := by
    simp only [QP_iter]
    rw [hsub1]
    simp only []
    rw [if_neg hz1]
    simp [hscan, AState.mk.injEq]
    funext j
    fin_cases j
    norm_num
  have hi2 : QP_iter !![(1:ℚ)] ![0] []
      ⟨![0], [], [((![1] : Vec 1), (0:ℚ)), ((![1] : Vec 1), (0:ℚ))], []⟩
      = .done ![0] [] := by
    simp only [QP_iter]
    rw [sub_nil_zero]
    simp
  have hact1 : active_set [![1], ![1]] ([0, 0] : List ℚ) ![1] =
      ([], [((![1] : Vec 1), (0:ℚ)), ((![1] : Vec 1), (0:ℚ))]) := by
    norm_num [active_set, dot, Fin.sum_univ_one, List.filter]
  have hact2 : active_set [![1], ![1]] ([0, 0] : List ℚ) ![0] =
      ([((![1] : Vec 1), (0:ℚ)), ((![1] : Vec 1), (0:ℚ))], []) := by
    norm_num [active_set, dot, Fin.sum_univ_one, List.filter]
  have hfeas1 : ¬ ((some ([![1], ![1]], ([0, 0] : List ℚ))).isSome = true
      ∧ ¬ ineqHolds [((![1] : Vec 1), (0:ℚ)), ((![1] : Vec 1), (0:ℚ))] ![1]) := by
    intro h
    apply h.2
    intro r hr
    simp only [List.mem_cons, List.not_mem_nil, or_false] at hr
    rcases hr with h1 | h1 <;> subst h1 <;> norm_num [dot, Fin.sum_univ_one]
  have hfeas2 : ¬ ((some ([![1], ![1]], ([0, 0] : List ℚ))).isSome = true
      ∧ ¬ ineqHolds [((![1] : Vec 1), (0:ℚ)), ((![1] : Vec 1), (0:ℚ))] ![0]) := by
    intro h
    apply h.2
    intro r hr
    simp only [List.mem_cons, List.not_mem_nil, or_false] at hr
    rcases hr with h1 | h1 <;> subst h1 <;> norm_num [dot, Fin.sum_univ_one]
  have hdet0 : (kktL !![(1:ℚ)]
      [((![1] : Vec 1), (0:ℚ)), ((![1] : Vec 1), (0:ℚ))]).det = 0 := by
    apply Matrix.det_zero_of_row_eq
      (show (Sum.inr 0 : Fin 1 ⊕ Fin 2) ≠ Sum.inr 1 by simp)
    funext k
    rcases k with k | k <;> fin_cases k <;>
      simp [kktL, kktA, Matrix.fromBlocks]
  have hsubfail : QP_subproblem !![(1:ℚ)] ![0]
      [((![1] : Vec 1), (0:ℚ)), ((![1] : Vec 1), (0:ℚ))] ![0] = none := by
    rw [QP_subproblem, if_pos hdet0]
  have hifail : QP_iter !![(1:ℚ)] ![0] []
      ⟨![0], [((![1] : Vec 1), (0:ℚ)), ((![1] : Vec 1), (0:ℚ))], [],
       [((![1] : Vec 1), (0:ℚ)), ((![1] : Vec 1), (0:ℚ))]⟩ = .fail := by
    simp only [QP_iter]
    rw [hsubfail]
  constructor
  · simp only [QP_activeset, Option.isSome_none, Bool.false_eq_true, false_and,
      if_false, Option.getD_some, List.zip_cons_cons, List.zip_nil_right]
    split_ifs with hcond
    · exact absurd hcond hfeas1
    simp only [hact1, List.nil_append]
    rw [QP_loop_two, hi1]
    show QP_loop !![(1:ℚ)] ![0] [] 1
      ⟨![0], [], [((![1] : Vec 1), (0:ℚ)), ((![1] : Vec 1), (0:ℚ))], []⟩ = _
    rw [QP_loop_one, hi2]
  · simp only [QP_activeset, Option.isSome_none, Bool.false_eq_true, false_and,
      if_false, Option.getD_some, List.zip_cons_cons, List.zip_nil_right]
    split_ifs with hcond
    · exact absurd hcond hfeas2
    simp only [hact2, List.nil_append]
    rw [QP_loop_one, hifail]

/-- C8, amended: restarting from a point `x*` that is feasible, whose
binding working set (equalities plus the rows active at `x*`) has a
nonsingular KKT matrix, and that carries an exact stationarity
certificate `Aᵀ μ = G x* + c` with non-negative inequality block — as a
successful run supplies in exact arithmetic — returns the same `x*` in
exactly one iteration (the first subproblem yields a zero step and
multipliers `snap ∘ μ`, all inequality ones `≥ 0`): fuel `1` returns
`ok (x*, snap ∘ μ)` while fuel `0` is still running. -/
theorem QP_activeset_restart_one_iteration {n : ℕ}
    (G : Matrix (Fin n) (Fin n) ℚ) (c : Vec n)
    (aeL : List (Vec n)) (beL : List ℚ) (aiL : List (Vec n)) (biL : List ℚ)
    (xstar : Vec n)
    (mu : Fin ((aeL.zip beL ++ (active_set aiL biL xstar).1).length) → ℚ)
    (hfeasE : eqHolds (aeL.zip beL) xstar)
    (hfeasI : ineqHolds (aiL.zip biL) xstar)
    (hdet : (kktL G (aeL.zip beL ++ (active_set aiL biL xstar).1)).det ≠ 0)
    (hcert : (kktA (aeL.zip beL ++ (active_set aiL biL xstar).1))ᵀ.mulVec mu
        = G.mulVec xstar + c)
    (hmu : ∀ i : Fin ((aeL.zip beL ++ (active_set aiL biL xstar).1).length),
        (aeL.zip beL).length ≤ (i : ℕ) → 0 ≤ mu i) :
    QP_activeset 1 G c (some (aeL, beL)) (some (aiL, biL)) (some xstar)
      = .ok xstar (List.ofFn fun i => snap (mu i))
    ∧ QP_activeset 0 G c (some (aeL, beL)) (some (aiL, biL)) (some xstar)
      = .fuelOut := by
  have hs : (kktL G (aeL.zip beL ++ (active_set aiL biL xstar).1)).mulVec
      (Sum.elim 0 mu)
      = kktR G c xstar (aeL.zip beL ++ (active_set aiL biL xstar).1) := by
    rw [kktL_mulVec]
    funext i
    rcases i with i | i
    · simp only [Sum.elim_inl, kktR, Pi.sub_apply, Matrix.mulVec_zero, hcert]
      try simp
    · simp only [Sum.elim_inr, kktR, Matrix.mulVec_zero]
      try rfl
  have hsub : QP_subproblem G c
      (aeL.zip beL ++ (active_set aiL biL xstar).1) xstar
      = some (fun _ => snap 0, List.ofFn fun i => snap (mu i)) :=
    QP_subproblem_eq G c xstar (aeL.zip beL ++ (active_set aiL biL xstar).1)
      (Sum.elim 0 mu) hdet hs
  have hz : ∀ j : Fin n, (fun _ : Fin n => snap 0) j = 0 := fun j => snap_zero
  have hnn : ∀ q ∈ (List.ofFn fun i => snap (mu i)).drop (aeL.zip beL).length,
      0 ≤ q := by
    intro q hq
    obtain ⟨m, hm, hget⟩ := List.mem_iff_getElem.mp hq
    rw [List.getElem_drop, List.getElem_ofFn] at hget
    rw [← hget]
    apply snap_nonneg
    apply hmu
    simp
  have hi : QP_iter G c (aeL.zip beL)
      ⟨xstar, (active_set aiL biL xstar).1, (active_set aiL biL xstar).2,
       aeL.zip beL ++ (active_set aiL biL xstar).1⟩
      = .done xstar (List.ofFn fun i => snap (mu i)) := by
    simp only [QP_iter]
    rw [hsub]
    simp only []
    rw [if_pos hz, if_pos hnn]
  have hnotE : ¬ ((some (aeL, beL)).isSome = true
      ∧ ¬ eqHolds (aeL.zip beL) xstar) := fun h => h.2 hfeasE
  have hnotI : ¬ ((some (aiL, biL)).isSome = true
      ∧ ¬ ineqHolds (aiL.zip biL) xstar) := fun h => h.2 hfeasI
  constructor
  · simp only [QP_activeset, Option.getD_some]
    rw [if_neg hnotE, if_neg hnotI, QP_loop_one, hi]
  · simp only [QP_activeset, Option.getD_some]
    rw [if_neg hnotE, if_neg hnotI, QP_loop_zero]

theorem QP_activeset_restart_one_iteration_witness :
    QP_activeset 1 !![(1:ℚ)] ![0] (some ([![1]], [0])) (some ([], []))
      (some ![0]) = .ok ![0] [(0:ℚ)]
    ∧ QP_activeset 0 !![(1:ℚ)] ![0] (some ([![1]], [0])) (some ([], []))
      (some ![0]) = .fuelOut := by
  have h := QP_activeset_restart_one_iteration !![(1:ℚ)] ![0] [![1]] [0] [] []
    ![0] (fun _ => 0) ?hfe ?hfi ?hd ?hc ?hm
  · constructor
    · have h1 := h.1
      have h5 : (List.ofFn fun i :
          Fin (([![1]].zip ([0] : List ℚ) ++
            (active_set [] ([] : List ℚ) (![0] : Vec 1)).1).length) =>
          snap ((fun _ => (0:ℚ)) i)) = [(0:ℚ)] := by
        have h6 : (List.ofFn fun i :
            Fin (([![1]].zip ([0] : List ℚ) ++
              (active_set [] ([] : List ℚ) (![0] : Vec 1)).1).length) =>
            snap ((fun _ => (0:ℚ)) i)) = [snap 0] := rfl
        rw [h6, snap_zero]
      rw [h5] at h1
      exact h1
    · exact h.2
  case hfe =>
    intro r hr
    simp only [List.zip_cons_cons, List.zip_nil_right, List.mem_cons,
      List.not_mem_nil, or_false] at hr
    subst hr
    norm_num [dot, Fin.sum_univ_one]
  case hfi =>
    intro r hr
    cases hr
  case hd => exact det_kktL_one_single 0
  case hc =>
    funext j
    fin_cases j
    simp [kktA, Matrix.mulVec, Matrix.dotProduct, Fin.sum_univ_one,
      Matrix.transpose]
  case hm =>
    intro i _
    norm_num

/- ------------------------------------------------------------------
   C1: the step-length scan does not take the minimum ratio.
   ------------------------------------------------------------------ -/

/-- C1 (code bug): the source updates `alpha_k` whenever a ratio is
below the constant `1` (`if v_tmp < 1`), not whenever it is below the
current `alpha_k`, so the accepted step is the ratio of the LAST
inactive row below `1`, not the minimum.  Concretely, for
`min ½x²` with rows `x ≥ 1/2` (ratio `1/2`) and `x ≥ 1/4`
(ratio `3/4`) from `x0 = 1`: the scan returns `alpha = 3/4` and adds
the second row although the first row's ratio `1/2` is admissible and
smaller, and the full solver run then returns the point `x = 1/4`,
which violates the skipped constraint `x ≥ 1/2`. -/
theorem QP_activeset_alpha_overwrite_bug :
    QP_activeset 2 !![(1:ℚ)] ![0] none
        (some ([![1], ![1]], [1/2, 1/4])) (some ![1])
      = .ok ![(1/4 : ℚ)] [(1/4 : ℚ)]
    ∧ alphaScan ![1] (fun _ : Fin 1 => (-1:ℚ))
        [((![1] : Vec 1), (1/2:ℚ)), ((![1] : Vec 1), (1/4:ℚ))]
      = (3/4, some 1)
    ∧ dot (![1] : Vec 1) (fun _ : Fin 1 => (-1:ℚ)) < 0
    ∧ ((1:ℚ)/2 - dot (![1] : Vec 1) ![1]) /
        dot (![1] : Vec 1) (fun _ : Fin 1 => (-1:ℚ)) = 1/2
    ∧ ((1:ℚ)/2) < 3/4
    ∧ ¬ ineqHolds [((![1] : Vec 1), (1/2:ℚ))] ![(1/4:ℚ)] := by
  have hscan : alphaScan ![1] (fun _ : Fin 1 => (-1:ℚ))
      [((![1] : Vec 1), (1/2:ℚ)), ((![1] : Vec 1), (1/4:ℚ))]
      = (3/4, some 1) := by
    norm_num [alphaScan, alphaLoop, dot, Fin.sum_univ_one]
  have hsub1 : QP_subproblem !![(1:ℚ)] ![0] [] ![1] =
      some (fun _ : Fin 1 => (-1:ℚ), []) := by
    have h5 : (fun _ : Fin 1 => snap (-((1:ℚ) + 0))) = fun _ : Fin 1 => (-1:ℚ) := by
      funext j
      norm_num [snap, tol_zero]
    rw [QP_subproblem_one_nil, h5]
  have hz1 : ¬ ∀ j : Fin 1, (fun _ : Fin 1 => (-1:ℚ)) j = 0 := by
    intro h
    have := h 0
    norm_num at this
  have hi1 : QP_iter !![(1:ℚ)] ![0] []
      ⟨![1], [], [((![1] : Vec 1), (1/2:ℚ)), ((![1] : Vec 1), (1/4:ℚ))], []⟩
      = .next ⟨![(1/4:ℚ)], [((![1] : Vec 1), (1/4:ℚ))],
               [((![1] : Vec 1), (1/2:ℚ))], [((![1] : Vec 1), (1/4:ℚ))]⟩ := by
    simp only [QP_iter]
    rw [hsub1]
    simp only []
    rw [if_neg hz1, hscan]
    rw [if_neg (show ¬ (((3:ℚ)/4, some 1).1 = 1) by norm_num)]
    have hxeq : (fun j : Fin 1 => ![(1:ℚ)] j +
        (fun _ : Fin 1 => (-1:ℚ)) j * ((3:ℚ)/4, some 1).1) = ![(1/4:ℚ)] := by
      funext j
      fin_cases j
      norm_num
    rw [hxeq]
    norm_num [List.eraseIdx]
  have hsub2 : QP_subproblem !![(1:ℚ)] ![0] [((![1] : Vec 1), (1/4:ℚ))]
      ![(1/4:ℚ)] = some (fun _ : Fin 1 => (0:ℚ), [(1/4:ℚ)]) := by
    have e1 : (fun _ : Fin 1 => snap 0) = fun _ : Fin 1 => (0:ℚ) := by
      funext j
      exact snap_zero
    have e2 : snap ((1:ℚ)/4 + 0) = 1/4 := by
      simp only [snap, tol_zero, add_zero]
      rw [abs_of_pos (show (0:ℚ) < 1/4 by norm_num)]
      norm_num
    rw [QP_subproblem_one_single, e1, e2]
  have hi2 : QP_iter !![(1:ℚ)] ![0] []
      ⟨![(1/4:ℚ)], [((![1] : Vec 1), (1/4:ℚ))],
       [((![1] : Vec 1), (1/2:ℚ))], [((![1] : Vec 1), (1/4:ℚ))]⟩
      = .done ![(1/4:ℚ)] [(1/4:ℚ)] := by
    simp only [QP_iter]
    rw [hsub2]
    norm_num
  have hact : active_set [![1], ![1]] ([1/2, 1/4] : List ℚ) ![1] =
      ([], [((![1] : Vec 1), (1/2:ℚ)), ((![1] : Vec 1), (1/4:ℚ))]) := by
    norm_num [active_set, dot, Fin.sum_univ_one, List.filter]
  have hfeas : ¬ ((some ([![1], ![1]], ([1/2, 1/4] : List ℚ))).isSome = true
      ∧ ¬ ineqHolds [((![1] : Vec 1), (1/2:ℚ)), ((![1] : Vec 1), (1/4:ℚ))] ![1]) := by
    intro h
    apply h.2
    intro r hr
    simp only [List.mem_cons, List.not_mem_nil, or_false] at hr
    rcases hr with h1 | h1 <;> subst h1 <;> norm_num [dot, Fin.sum_univ_one]
  refine ⟨?_, hscan, by norm_num [dot, Fin.sum_univ_one],
    by norm_num [dot, Fin.sum_univ_one], by norm_num, ?_⟩
  · simp only [QP_activeset, Option.isSome_none, Bool.false_eq_true, false_and,
      if_false, Option.getD_some, List.zip_cons_cons, List.zip_nil_right]
    split_ifs with hcond
    · exact absurd hcond hfeas
    simp only [hact, List.nil_append]
    rw [QP_loop_two, hi1]
    show QP_loop !![(1:ℚ)] ![0] [] 1
      ⟨![(1/4:ℚ)], [((![1] : Vec 1), (1/4:ℚ))],
       [((![1] : Vec 1), (1/2:ℚ))], [((![1] : Vec 1), (1/4:ℚ))]⟩ = _
    rw [QP_loop_one, hi2]
  · intro h
    have := h ((![1] : Vec 1), (1/2:ℚ)) (by simp)
    norm_num [dot, Fin.sum_univ_one] at this

end ActiveSetQP
